import Mathlib

/-!
Shallow embedding of the LCS Discord bot (src/index.js, src/logging.js) for
checking the natural-language specification against the code.

Strings are modelled as Lean `String` / `List Char`; JS numbers that hold
monetary amounts parsed from decimal literals are modelled as `ℚ` (every
number the code manipulates here originates from a finite decimal numeral,
so rational arithmetic is exact).  Discord I/O (sends, reactions, sheet
appends) is modelled as explicit effect lists; handler state (the
`processed` set and the `groupBets` map entries) is passed explicitly.
-/

namespace LCSBot

/-- Digits of a decimal numeral folded into a natural number
(the integer read by JS `Number` on a digit string). -/
def digitsToNat (ds : List Char) : Nat :=
  ds.foldl (fun n c => 10 * n + (c.toNat - '0'.toNat)) 0

/-- JS regex word-character class `\w` = `[A-Za-z0-9_]` (used by `\b`). -/
def isWordChar (c : Char) : Bool :=
  c.isAlphanum || c == '_'

/-- The whitespace characters of JS regex `\s` / `trim` that can occur in
the ASCII messages modelled here. -/
def isSpaceChar (c : Char) : Bool :=
  c == ' ' || c == '\t' || c == '\n' || c == '\r'

/-- JS `String.prototype.trim` (restricted to the ASCII whitespace above). -/
def trimChars (cs : List Char) : List Char :=
  ((cs.dropWhile isSpaceChar).reverse.dropWhile isSpaceChar).reverse

/-- `pat` occurs in `cs` starting at position `i`. -/
def subAt (cs pat : List Char) (i : Nat) : Bool :=
  (cs.drop i).take pat.length == pat

/-- Model of JS `text.includes(pat)`. -/
def containsSub (cs pat : List Char) : Bool :=
  (List.range (cs.length + 1)).any (fun i => subAt cs pat i)

/-- Model of JS `text.indexOf(pat)`: index of the first occurrence,
`none` standing for JS `-1`. -/
def findSub (cs pat : List Char) : Option Nat :=
  (List.range (cs.length + 1)).find? (fun i => subAt cs pat i)

/-- `hasExactReturns` from src/index.js: `text.includes(' Returns ')`. -/
def hasExactReturns (s : String) : Bool :=
  containsSub s.data " Returns ".data

/-- Word boundary of `/\b../` on the left of position `i`: start of text,
or the previous character is not a word character. -/
def boundaryBefore (cs : List Char) (i : Nat) : Bool :=
  match i with
  | 0 => true
  | j + 1 =>
    match cs[j]? with
    | some c0 => !isWordChar c0
    | none => true

/-- Word boundary of `/..\b/` after the two matched characters at
positions `i`, `i+1`: end of text, or the next character is not a word
character. -/
def boundaryAfter (cs : List Char) (i : Nat) : Bool :=
  match cs[i + 2]? with
  | some c3 => !isWordChar c3
  | none => true

/-- The regex `/\bgb\b/i` matches at position `i` of `cs`. -/
def isGbAt (cs : List Char) (i : Nat) : Bool :=
  match cs[i]?, cs[i + 1]? with
  | some c1, some c2 =>
    (c1 == 'g' || c1 == 'G') && (c2 == 'b' || c2 == 'B') &&
      boundaryBefore cs i && boundaryAfter cs i
  | _, _ => false

/-- `hasGB` from src/index.js: `/\bgb\b/i.test(text)`. -/
def hasGB (s : String) : Bool :=
  (List.range s.data.length).any (fun i => isGbAt s.data i)

/-- One match of the regex `/\$([0-9]+(?:\.[0-9]+)?)/g`:
the numeric value of the captured group and the index of the `$`. -/
structure DollarMatch where
  value : ℚ
  index : Nat
deriving DecidableEq

/-- Value of `/\$([0-9]+(?:\.[0-9]+)?)/` anchored at position `i` of `cs`
(`none` if the regex does not match there).  The fractional part is taken
only when the `.` is followed by at least one digit, as in the regex. -/
def dollarMatchAt (cs : List Char) (i : Nat) : Option ℚ :=
  match cs.drop i with
  | '$' :: rest =>
    let intDs := rest.takeWhile Char.isDigit
    if intDs = [] then none
    else
      let rest2 := rest.drop intDs.length
      let fracDs :=
        match rest2 with
        | '.' :: r3 => r3.takeWhile Char.isDigit
        | _ => []
      if fracDs = [] then some (digitsToNat intDs : ℚ)
      else some ((digitsToNat intDs : ℚ) +
        (digitsToNat fracDs : ℚ) / (10 : ℚ) ^ fracDs.length)
  | _ => none

/-- All matches of `/\$([0-9]+(?:\.[0-9]+)?)/g` over `cs`, in order,
with their indices (the `allMatches` loop of `extractStakeFromText`).
A JS global regex resumes after each match, but a matched substring
(`$` + digits, optionally `.` + digits) contains no further `$`, so no
match can start strictly inside another; scanning every position is
therefore equivalent and keeps the definition structurally recursive. -/
def scanDollars (cs : List Char) : List DollarMatch :=
  (List.range cs.length).filterMap
    (fun i => (dollarMatchAt cs i).map (fun v => ⟨v, i⟩))

/-- The JS `reduce((min, x) => (x.value < min ? x.value : min), init)`
loop of `extractStakeFromText`. -/
def minValueAux (ms : List DollarMatch) (init : ℚ) : ℚ :=
  ms.foldl (fun mn x => if x.value < mn then x.value else mn) init

/-- `extractStakeFromText` from src/index.js: all `$<decimal>` matches are
collected; with a `Returns` occurrence and at least one match before it,
the last such match wins; otherwise the minimum over all matches; `none`
when there is no match at all. -/
def extractStakeFromText (s : String) : Option ℚ :=
  let cs := s.data
  match scanDollars cs with
  | [] => none
  | m0 :: rest =>
    let allMatches := m0 :: rest
    let fallback : ℚ := minValueAux allMatches m0.value
    match findSub cs ("Returns".data) with
    | some returnsIndex =>
      let beforeReturns := allMatches.filter (fun x => decide (x.index < returnsIndex))
      if h : 0 < beforeReturns.length then
        some (beforeReturns.getLast (List.length_pos.mp h)).value
      else some fallback
    | none => some fallback

/-- Parse `[0-9]+(?:\.[0-9]+)?` anchored so that it must consume the whole
list (the trailing `$` of the `parseDollarOnlyMessage` regex). -/
def parseDecimalAll (cs : List Char) : Option ℚ :=
  let intDs := cs.takeWhile Char.isDigit
  if intDs = [] then none
  else
    match cs.drop intDs.length with
    | [] => some (digitsToNat intDs : ℚ)
    | '.' :: r3 =>
      let fracDs := r3.takeWhile Char.isDigit
      if fracDs = [] then none
      else if r3.drop fracDs.length = [] then
        some ((digitsToNat intDs : ℚ) +
          (digitsToNat fracDs : ℚ) / (10 : ℚ) ^ fracDs.length)
      else none
    | _ => none

/-- `parseDollarOnlyMessage` from src/index.js:
`trimmed.match(/^\$\s*([0-9]+(?:\.[0-9]+)?)$/)`, yielding the number. -/
def parseDollarOnlyMessage (content : String) : Option ℚ :=
  match trimChars content.data with
  | '$' :: rest => parseDecimalAll (rest.dropWhile isSpaceChar)
  | _ => none

/-- Decimal digits of a natural number (fuel-driven so it reduces in the
kernel); `fuel` must exceed the number of digits. -/
def natToDigits : Nat → Nat → List Char → List Char
  | 0, _, acc => acc
  | fuel + 1, n, acc =>
    if n < 10 then Char.ofNat (48 + n) :: acc
    else natToDigits fuel (n / 10) (Char.ofNat (48 + n % 10) :: acc)

/-- Decimal rendering of a natural number. -/
def natToStr (n : Nat) : String :=
  ⟨natToDigits (n + 1) n []⟩

/-- `fmtMoney` from src/index.js: `Number(n).toFixed(2)` for the
nonnegative amounts used by the bot — round to cents and print with
exactly two decimals. -/
def fmtMoney (q : ℚ) : String :=
  let cents : Nat := (⌊q * 100 + 1 / 2⌋).toNat
  let f := cents % 100
  natToStr (cents / 100) ++ "." ++ (if f < 10 then "0" else "") ++ natToStr f

/-- The cash-out / gain-loss line composition of the MessageCreate
cash-out handler (src/index.js lines 423-439) for a nonzero cash-out
amount.  The source guards the gain/loss branch with
`stake !== null && isFinite(stake)`; every stake produced by
`extractStakeFromText` is a finite decimal, so the finiteness guard is
vacuous in this model. -/
def composeCashoutLine (cashoutAmount : ℚ) (stake : Option ℚ) : String :=
  match stake with
  | none => "Cashed out at $" ++ fmtMoney cashoutAmount
  | some st =>
    let diff := cashoutAmount - st
    let ab := |diff|
    if ab ≥ 1 / 200 then
      if diff > 0 then
        "Cashed out for a $" ++ fmtMoney ab ++ " gain for $" ++ fmtMoney cashoutAmount
      else
        "Cashed out at a $" ++ fmtMoney ab ++ " loss for $" ++ fmtMoney cashoutAmount
    else
      "Cashed out at $" ++ fmtMoney cashoutAmount

/-- `RESOLVED_EMOJIS` from src/index.js. -/
def RESOLVED_EMOJIS : List String :=
  ["✅", "✔️", "☑️", "❌", "✖️", "🟥", "🟩"]

/-- `messageAppearsResolved` from src/index.js: some reaction on the
message has an emoji name in `RESOLVED_EMOJIS`.  The message's reaction
emoji names are passed explicitly. -/
def messageAppearsResolved (reactions : List String) : Bool :=
  reactions.any (fun e => decide (e ∈ RESOLVED_EMOJIS))

/-- `buildOriginalBetLink` from src/index.js:
`**tag**\ncontent\n<#channelId>` with `'(no text)'` for empty content. -/
def buildOriginalBetLink (authorTag content channelId : String) : String :=
  "**" ++ authorTag ++ "**\n" ++ (if content = "" then "(no text)" else content) ++
    "\n<#" ++ channelId ++ ">"

/-- The observable inputs of one MessageCreate event as seen by the
cash-out / void handler (src/index.js lines 377-454). -/
structure CashoutContext where
  authorIsBot : Bool
  inGuild : Bool
  isReply : Bool
  inInput : Bool
  content : String
  originalFound : Bool
  originalReactions : List String
  originalContent : String
  originalAuthorTag : String
  originalChannelId : String
  outputChannelOk : Bool
deriving DecidableEq

/-- External actions the cash-out / void handler can perform, in order. -/
inductive CashoutEffect where
  | react (emoji : String)
  | send (line : String)
  | sheetVoid
  | sheetCashOut
deriving DecidableEq

/-- The MessageCreate cash-out / void handler (src/index.js lines
377-454), as the list of external actions it performs.  Guard order
follows the source: bot author, guild, reply, input channel,
exact-dollar parse, original fetch, resolved check, output channel,
then the `$0` void branch or the cash-out branch. -/
def cashoutHandler (ctx : CashoutContext) : List CashoutEffect :=
  if ctx.authorIsBot then []
  else if !ctx.inGuild then []
  else if !ctx.isReply then []
  else if !ctx.inInput then []
  else
    match parseDollarOnlyMessage ctx.content with
    | none => []
    | some amt =>
      if !ctx.originalFound then []
      else if messageAppearsResolved ctx.originalReactions then []
      else if !ctx.outputChannelOk then []
      else
        let link := buildOriginalBetLink ctx.originalAuthorTag ctx.originalContent
          ctx.originalChannelId
        if amt = 0 then
          [.react "⚫", .send ("Bet Voided\n" ++ link), .sheetVoid]
        else
          let stake := extractStakeFromText ctx.originalContent
          [.react "🟡", .send (composeCashoutLine amt stake ++ "\n" ++ link),
            .sheetCashOut]

/-- The `processed` ledger operation of the ✅/❌ resolution path
(src/index.js lines 334-335): `if (processed.has(id)) return;
processed.add(id);` — named `markIfUnresolved` in the specification.
JS `Set.add` appends in insertion order. -/
def markIfUnresolved (processed : List String) (id : String) : Bool × List String :=
  if id ∈ processed then (false, processed) else (true, processed ++ [id])

/-- The observable inputs of one MessageReactionAdd event as seen by the
✅/❌ resolution path (src/index.js lines 326-368). -/
structure ReactionEvent where
  messageId : String
  content : String
  emoji : String
  inInput : Bool
  targetOk : Bool
deriving DecidableEq

/-- The ✅/❌ resolution path of the MessageReactionAdd handler
(src/index.js lines 326-368): updates the `processed` ledger and reports
whether the success/fail forward was sent to the output channel.  Guards
follow the source order: input channel, ` Returns ` qualification, emoji,
`processed` ledger (marking happens here, before the output-channel
lookup), then the channel lookup gates the send. -/
def resolutionStep (processed : List String) (ev : ReactionEvent) :
    List String × Bool :=
  if !ev.inInput then (processed, false)
  else if !hasExactReturns ev.content then (processed, false)
  else if ev.emoji ≠ "✅" ∧ ev.emoji ≠ "❌" then (processed, false)
  else
    let m := markIfUnresolved processed ev.messageId
    if m.1 then (if !ev.targetOk then (m.2, false) else (m.2, true))
    else (m.2, false)

/-- Number of success/fail forwards emitted for message `id` when the
resolution path processes `evs` starting from ledger `processed`. -/
def forwardCount (processed : List String) (evs : List ReactionEvent) (id : String) : Nat :=
  match evs with
  | [] => 0
  | ev :: rest =>
    (if (resolutionStep processed ev).2 = true ∧ ev.messageId = id then 1 else 0) +
      forwardCount (resolutionStep processed ev).1 rest id

/-- One `groupBets` map entry (src/index.js line 31): proposer, up-voter
and down-voter sets (JS `Set` iterates in insertion order, modelled as
duplicate-free lists in insertion order), and the forwarded flag. -/
structure ProposalState where
  proposerId : String
  upvoters : List String
  downvoters : List String
  proposalForwarded : Bool
deriving DecidableEq

/-- A 👍 or 👎 reaction. -/
inductive VoteEmoji where
  | up
  | down
deriving DecidableEq

/-- The announcement the voting path sends to the output channel, by
ids; the source renders usernames for these ids best-effort before
sending, which does not affect which announcement is chosen. -/
inductive VoteAnnouncement where
  | passed (forIds againstIds : List String)
  | progressFor (voterId : String) (remaining : Nat)
  | rejected (proposerId : String) (downIds forIds : List String)
  | votedAgainst (voterId : String)
deriving DecidableEq

/-- The group-bet voting path of the MessageReactionAdd handler
(src/index.js lines 253-323), for a qualifying message in the input
channel: guards (proposer, duplicate voter, output channel found in that
order), then the vote mutation and the emitted announcement.  `passed`
is recomputed as `upvoters.size >= 1` and `failed` as
`downvoters.size >= 2` on every vote, exactly as in the source. -/
def voteStep (targetOk : Bool) (st : ProposalState) (voterId : String)
    (e : VoteEmoji) : ProposalState × Option VoteAnnouncement :=
  if voterId = st.proposerId then (st, none)
  else if voterId ∈ st.upvoters ∨ voterId ∈ st.downvoters then (st, none)
  else if !targetOk then (st, none)
  else
    match e with
    | .up =>
      let st2 := { st with upvoters := st.upvoters ++ [voterId] }
      if st2.upvoters.length ≥ 1 then
        (st2, some (.passed (st2.proposerId :: st2.upvoters) st2.downvoters))
      else
        (st2, some (.progressFor voterId (1 - st2.upvoters.length)))
    | .down =>
      let st2 := { st with downvoters := st.downvoters ++ [voterId] }
      if st2.downvoters.length ≥ 2 then
        (st2, some (.rejected st2.proposerId st2.downvoters
          (st2.proposerId :: st2.upvoters)))
      else
        (st2, some (.votedAgainst voterId))

/-- The voter-set invariant of a `groupBets` entry: the proposer is in
neither set, the sets are duplicate-free, and no voter is in both. -/
def voterSetsOk (st : ProposalState) : Prop :=
  st.proposerId ∉ st.upvoters ∧ st.proposerId ∉ st.downvoters ∧
    st.upvoters.Nodup ∧ st.downvoters.Nodup ∧
    st.upvoters.Disjoint st.downvoters

/-! ### Helper lemmas about the resolution ledger -/

theorem mem_resolutionStep_of_mem (processed : List String) (ev : ReactionEvent)
    (id : String) (h : id ∈ processed) : id ∈ (resolutionStep processed ev).1 := by
  simp only [resolutionStep, markIfUnresolved]
  split_ifs <;> simp [h, List.mem_append]

theorem resolutionStep_forward_not_mem (processed : List String) (ev : ReactionEvent)
    (h : (resolutionStep processed ev).2 = true) :
    ev.messageId ∉ processed ∧ ev.messageId ∈ (resolutionStep processed ev).1 := by
  revert h
  simp only [resolutionStep, markIfUnresolved]
  split_ifs <;> simp_all [List.mem_append]

theorem forwardCount_zero_of_mem (id : String) (evs : List ReactionEvent) :
    ∀ processed : List String, id ∈ processed → forwardCount processed evs id = 0 := by
  induction evs with
  | nil => intro processed _; rfl
  | cons ev rest ih =>
    intro processed h
    rw [forwardCount, ih _ (mem_resolutionStep_of_mem processed ev id h)]
    by_cases hf : (resolutionStep processed ev).2 = true ∧ ev.messageId = id
    · exact absurd (hf.2 ▸ h) (resolutionStep_forward_not_mem processed ev hf.1).1
    · simp [hf]

theorem forwardCount_le_one (id : String) (evs : List ReactionEvent) :
    ∀ processed : List String, forwardCount processed evs id ≤ 1 := by
  induction evs with
  | nil => intro processed; simp [forwardCount]
  | cons ev rest ih =>
    intro processed
    rw [forwardCount]
    by_cases hf : (resolutionStep processed ev).2 = true ∧ ev.messageId = id
    · have hmem : id ∈ (resolutionStep processed ev).1 :=
        hf.2 ▸ (resolutionStep_forward_not_mem processed ev hf.1).2
      rw [forwardCount_zero_of_mem id rest _ hmem]
      simp [hf]
    · simp only [if_neg hf, Nat.zero_add]
      exact ih _

/-! ### Claim theorems -/

/-- C2: `markIfUnresolved` returns `true` and inserts the id on the first
call for that id, returns `false` (leaving the ledger unchanged) on every
subsequent call with the same id, and consequently the resolution path
issues at most one success/fail forward per message id over any sequence
of reaction events. -/
theorem C2_resolution_ledger (processed : List String) (id : String)
    (evs : List ReactionEvent) (h : id ∉ processed) :
    markIfUnresolved processed id = (true, processed ++ [id]) ∧
    id ∈ (markIfUnresolved processed id).2 ∧
    (∀ l : List String, id ∈ l → markIfUnresolved l id = (false, l)) ∧
    forwardCount processed evs id ≤ 1 := by
  refine ⟨by simp [markIfUnresolved, h], by simp [markIfUnresolved, h], ?_, ?_⟩
  · intro l hl
    simp [markIfUnresolved, hl]
  · exact forwardCount_le_one id evs processed

/-- Witness for C2 at a concrete ledger, id and event trace: two ✅
events for the same message produce `true` then `false` from the ledger
and at most one forward. -/
theorem C2_resolution_ledger_witness :
    markIfUnresolved [] "m1" = (true, ["m1"]) ∧
    "m1" ∈ (markIfUnresolved [] "m1").2 ∧
    (∀ l : List String, "m1" ∈ l → markIfUnresolved l "m1" = (false, l)) ∧
    forwardCount []
      [⟨"m1", "a Returns $3", "✅", true, true⟩,
       ⟨"m1", "a Returns $3", "✅", true, true⟩] "m1" ≤ 1 :=
  C2_resolution_ledger [] "m1"
    [⟨"m1", "a Returns $3", "✅", true, true⟩,
     ⟨"m1", "a Returns $3", "✅", true, true⟩] (by decide)

/-- C10: on a qualifying ✅/❌ event whose output-channel lookup fails,
the resolution path still marks the message id as processed and sends no
forward, and no later sequence of reaction events ever forwards that
message id — the marking is not atomic with the forward. -/
theorem C10_mark_precedes_forward (processed : List String) (ev : ReactionEvent)
    (h1 : ev.inInput = true) (h2 : hasExactReturns ev.content = true)
    (h3 : ev.emoji = "✅" ∨ ev.emoji = "❌")
    (h4 : ev.messageId ∉ processed) (h5 : ev.targetOk = false) :
    resolutionStep processed ev = (processed ++ [ev.messageId], false) ∧
    ∀ evs : List ReactionEvent,
      forwardCount (processed ++ [ev.messageId]) evs ev.messageId = 0 := by
  constructor
  · simp only [resolutionStep, markIfUnresolved, h1, h2, h5]
    rcases h3 with h3 | h3 <;> simp [h3, h4]
  · intro evs
    exact forwardCount_zero_of_mem _ evs _ (by simp)

/-- Witness for C10 at a concrete event whose channel lookup fails. -/
theorem C10_mark_precedes_forward_witness :
    resolutionStep [] ⟨"m1", "a Returns $3", "✅", true, false⟩ = (["m1"], false) ∧
    ∀ evs : List ReactionEvent, forwardCount ["m1"] evs "m1" = 0 :=
  C10_mark_precedes_forward [] ⟨"m1", "a Returns $3", "✅", true, false⟩
    (by decide) (by decide) (Or.inl rfl) (by decide) (by decide)

/-- C5: the pass threshold is 1 and the reject threshold is 2 — the
first valid non-proposer up-vote on a fresh proposal emits a Passed
announcement; a first valid down-vote alone emits only a voted-against
notice; the second valid down-vote from an independent voter emits a
Rejected announcement. -/
theorem C5_thresholds (p a b : String) (f : Bool)
    (ha : a ≠ p) (hb : b ≠ p) (hab : b ≠ a) :
    voteStep true ⟨p, [], [], f⟩ a .up =
      (⟨p, [a], [], f⟩, some (.passed [p, a] [])) ∧
    voteStep true ⟨p, [], [], f⟩ a .down =
      (⟨p, [], [a], f⟩, some (.votedAgainst a)) ∧
    voteStep true ⟨p, [], [a], f⟩ b .down =
      (⟨p, [], [a, b], f⟩, some (.rejected p [a, b] [p])) := by
  refine ⟨?_, ?_, ?_⟩ <;> simp [voteStep, ha, hb, hab]

/-- Witness for C5 at concrete proposer and voters. -/
theorem C5_thresholds_witness :
    voteStep true ⟨"P", [], [], true⟩ "A" .up =
      (⟨"P", ["A"], [], true⟩, some (.passed ["P", "A"] [])) ∧
    voteStep true ⟨"P", [], [], true⟩ "A" .down =
      (⟨"P", [], ["A"], true⟩, some (.votedAgainst "A")) ∧
    voteStep true ⟨"P", [], ["A"], true⟩ "B" .down =
      (⟨"P", [], ["A", "B"], true⟩, some (.rejected "P" ["A", "B"] ["P"])) :=
  C5_thresholds "P" "A" "B" true (by decide) (by decide) (by decide)

/-- C6: a vote by the proposer, or by a voter already present in either
voter set, is a no-op (state unchanged, nothing announced); and every
vote preserves the voter-set invariant, so each non-proposer voter
appears in at most one of the two sets, at most once. -/
theorem C6_at_most_one_vote (t : Bool) (st : ProposalState) (v : String)
    (e : VoteEmoji) :
    ((v = st.proposerId ∨ v ∈ st.upvoters ∨ v ∈ st.downvoters) →
      voteStep t st v e = (st, none)) ∧
    (voterSetsOk st → voterSetsOk (voteStep t st v e).1) := by
  constructor
  · intro h
    unfold voteStep
    by_cases hv : v = st.proposerId
    · simp [hv]
    · rcases h with h | h | h
      · exact absurd h hv
      · simp [hv, h]
      · simp [hv, h]
  · intro hok
    unfold voteStep
    split_ifs with h1 h2 h3
    · exact hok
    · exact hok
    · exact hok
    · rcases hok with ⟨hpu, hpd, hnu, hnd, hdisj⟩
      push_neg at h2
      obtain ⟨hvu, hvd⟩ := h2
      have h1' : st.proposerId ≠ v := fun hh => h1 hh.symm
      cases e with
      | up =>
        have key : voterSetsOk
            ⟨st.proposerId, st.upvoters ++ [v], st.downvoters,
              st.proposalForwarded⟩ := by
          refine ⟨?_, hpd, ?_, hnd, ?_⟩
          · intro hmem
            rcases List.mem_append.mp hmem with hmem | hmem
            · exact hpu hmem
            · exact h1' (List.mem_singleton.mp hmem)
          · exact hnu.append (List.nodup_singleton v)
              (fun a ha hb => hvu ((List.mem_singleton.mp hb) ▸ ha))
          · intro a ha had
            rcases List.mem_append.mp ha with ha | ha
            · exact hdisj ha had
            · exact hvd ((List.mem_singleton.mp ha) ▸ had)
        dsimp only
        split_ifs <;> exact key
      | down =>
        have key : voterSetsOk
            ⟨st.proposerId, st.upvoters, st.downvoters ++ [v],
              st.proposalForwarded⟩ := by
          refine ⟨hpu, ?_, hnu, ?_, ?_⟩
          · intro hmem
            rcases List.mem_append.mp hmem with hmem | hmem
            · exact hpd hmem
            · exact h1' (List.mem_singleton.mp hmem)
          · exact hnd.append (List.nodup_singleton v)
              (fun a ha hb => hvd ((List.mem_singleton.mp hb) ▸ ha))
          · intro a ha had
            rcases List.mem_append.mp had with had | had
            · exact hdisj ha had
            · exact hvu ((List.mem_singleton.mp had) ▸ ha)
        dsimp only
        split_ifs <;> exact key

/-- Witness for C6: a duplicate up-vote by an already-recorded voter is a
no-op, and the invariant holds after a fresh vote. -/
theorem C6_at_most_one_vote_witness :
    ((("A" : String) = "P" ∨ "A" ∈ ["A"] ∨ "A" ∈ ([] : List String)) →
      voteStep true ⟨"P", ["A"], [], true⟩ "A" .up =
        (⟨"P", ["A"], [], true⟩, none)) ∧
    (voterSetsOk ⟨"P", ["A"], [], true⟩ →
      voterSetsOk (voteStep true ⟨"P", ["A"], [], true⟩ "A" .up).1) :=
  C6_at_most_one_vote true ⟨"P", ["A"], [], true⟩ "A" .up

/-- C1: contrary to the claim, a proposal that has already passed is
re-announced: after the first valid up-vote emits a Passed announcement,
a second valid up-vote from an independent voter emits Passed again
(`upvoters.size >= 1` is recomputed on every vote and the state is never
locked), so later votes are not silently recorded. -/
theorem C1_reannounce_after_passed :
    voteStep true ⟨"P", [], [], true⟩ "A" .up =
      (⟨"P", ["A"], [], true⟩, some (.passed ["P", "A"] [])) ∧
    voteStep true ⟨"P", ["A"], [], true⟩ "B" .up =
      (⟨"P", ["A", "B"], [], true⟩, some (.passed ["P", "A", "B"] [])) := by
  decide

/-- C7: a reply whose content parses as an exact dollar amount is ignored
entirely when the original message already carries a reaction from the
resolved set — the handler performs no reaction, no send and no
report-sink call. -/
theorem C7_resolved_reply_ignored (ctx : CashoutContext) (amt : ℚ)
    (hamt : parseDollarOnlyMessage ctx.content = some amt)
    (hres : messageAppearsResolved ctx.originalReactions = true) :
    cashoutHandler ctx = [] := by
  unfold cashoutHandler
  rw [hamt]
  simp [hres]

/-- Witness for C7 at a concrete already-resolved original message. -/
theorem C7_resolved_reply_ignored_witness :
    parseDollarOnlyMessage "$5" = some ((5 : Nat) : ℚ) ∧
    messageAppearsResolved ["✅"] = true ∧
    cashoutHandler
      ⟨false, true, true, true, "$5", true, ["✅"], "a Returns $3", "A", "c", true⟩
      = [] :=
  ⟨by decide, by decide,
    C7_resolved_reply_ignored
      ⟨false, true, true, true, "$5", true, ["✅"], "a Returns $3", "A", "c", true⟩
      ((5 : Nat) : ℚ) (by decide) (by decide)⟩

/-- C9: the bot's own cash-out marker 🟡 and void marker ⚫ are not in
`RESOLVED_EMOJIS`; a message whose reactions are only these markers does
not appear resolved, so an exact-dollar reply runs the void or cash-out
flow again (reaction, send and report-sink call). -/
theorem C9_bot_marks_not_resolved :
    "🟡" ∉ RESOLVED_EMOJIS ∧ "⚫" ∉ RESOLVED_EMOJIS ∧
    (∀ reactions : List String,
      (∀ e ∈ reactions, e = "🟡" ∨ e = "⚫") →
      messageAppearsResolved reactions = false) ∧
    cashoutHandler ⟨false, true, true, true, "$0", true, ["🟡", "⚫"], "", "A", "c", true⟩
      = [.react "⚫", .send "Bet Voided\n**A**\n(no text)\n<#c>", .sheetVoid] ∧
    .react "🟡" ∈
      cashoutHandler ⟨false, true, true, true, "$5", true, ["🟡"], "", "A", "c", true⟩ ∧
    .sheetCashOut ∈
      cashoutHandler ⟨false, true, true, true, "$5", true, ["🟡"], "", "A", "c", true⟩ := by
  have hp : parseDollarOnlyMessage "$5" = some ((5 : Nat) : ℚ) := by decide
  have hred : cashoutHandler ⟨false, true, true, true, "$5", true, ["🟡"], "", "A", "c", true⟩
      = [.react "🟡",
         .send (composeCashoutLine ((5 : Nat) : ℚ) (extractStakeFromText "") ++ "\n" ++
           buildOriginalBetLink "A" "" "c"),
         .sheetCashOut] := by
    have hres : messageAppearsResolved ["🟡"] = false := by decide
    unfold cashoutHandler
    rw [hp]
    simp [hres]
  refine ⟨by decide, by decide, ?_, by decide, ?_, ?_⟩
  · intro reactions h
    simp only [messageAppearsResolved, List.any_eq_false]
    intro e he
    rcases h e he with rfl | rfl <;> decide
  · rw [hred]; simp
  · rw [hred]; simp

/-- Witness for C9's universally quantified part at a message carrying
both bot markers. -/
theorem C9_bot_marks_not_resolved_witness :
    messageAppearsResolved ["🟡", "⚫"] = false :=
  C9_bot_marks_not_resolved.2.2.1 ["🟡", "⚫"] (by decide)

/-- The cash-out framing exactly as the specification words it: with a
stake, a diff below half a cent is a neutral cash-out line, a positive
diff a gain line, a negative diff a loss line; without a stake, the plain
cash-out line. -/
def cashoutLineSpecC4 (cashoutAmount : ℚ) (stake : Option ℚ) : String :=
  match stake with
  | none => "Cashed out at $" ++ fmtMoney cashoutAmount
  | some st =>
    let diff := cashoutAmount - st
    if |diff| < 1 / 200 then "Cashed out at $" ++ fmtMoney cashoutAmount
    else if diff > 0 then
      "Cashed out for a $" ++ fmtMoney |diff| ++ " gain for $" ++ fmtMoney cashoutAmount
    else
      "Cashed out at a $" ++ fmtMoney |diff| ++ " loss for $" ++ fmtMoney cashoutAmount

/-- C4: for a nonzero cash-out amount, the composed line of the cash-out
handler agrees with the specification's framing rules in every case. -/
theorem C4_cashout_framing (a : ℚ) (stake : Option ℚ) (h : a ≠ 0) :
    composeCashoutLine a stake = cashoutLineSpecC4 a stake := by
  cases stake with
  | none => rfl
  | some st =>
    simp only [composeCashoutLine, cashoutLineSpecC4]
    by_cases hab : |a - st| ≥ 1 / 200
    · rw [if_pos hab, if_neg (not_lt.mpr hab)]
    · rw [if_neg hab, if_pos (lt_of_not_ge hab)]

/-- Witness for C4 at a gain case with concrete amounts. -/
theorem C4_cashout_framing_witness :
    composeCashoutLine 3 (some 2) = cashoutLineSpecC4 3 (some 2) :=
  C4_cashout_framing 3 (some 2) (by decide)

/-- The minimum of the values of a nonempty match list ("the smallest
dollar amount in the text"), `none` when there is none. -/
def smallestOrNone (ms : List DollarMatch) : Option ℚ :=
  match ms with
  | [] => none
  | m0 :: rest => some ((rest.map (fun x => x.value)).foldl min m0.value)

/-- Stake inference as the specification words it: all `$<decimal>`
occurrences with offsets; if `Returns` occurs and some dollar amount
occurs before its offset, the last such amount; otherwise the smallest
amount anywhere; otherwise no stake. -/
def stakeSpecC3 (s : String) : Option ℚ :=
  let cs := s.data
  let ms := scanDollars cs
  match findSub cs ("Returns".data) with
  | some r =>
    let before := ms.filter (fun x => decide (x.index < r))
    if h : before ≠ [] then some (before.getLast h).value
    else smallestOrNone ms
  | none => smallestOrNone ms

theorem reduce_step_eq_min (mn v : ℚ) : (if v < mn then v else mn) = min mn v := by
  rcases lt_or_le v mn with h | h
  · rw [if_pos h, min_eq_right h.le]
  · rw [if_neg (not_lt.mpr h), min_eq_left h]

theorem minValueAux_eq_foldl_min (l : List DollarMatch) :
    ∀ init : ℚ, minValueAux l init = (l.map (fun x => x.value)).foldl min init := by
  induction l with
  | nil => intro _; rfl
  | cons x xs ih =>
    intro init
    have h0 : minValueAux (x :: xs) init
        = minValueAux xs (if x.value < init then x.value else init) := rfl
    rw [h0, reduce_step_eq_min, ih]
    rfl

theorem minValueAux_head_eq (m0 : DollarMatch) (rest : List DollarMatch) :
    minValueAux (m0 :: rest) m0.value
      = (rest.map (fun x => x.value)).foldl min m0.value := by
  rw [minValueAux_eq_foldl_min]
  have h0 : ((m0 :: rest).map (fun x => x.value)).foldl min m0.value
      = (rest.map (fun x => x.value)).foldl min (min m0.value m0.value) := rfl
  rw [h0, min_self]

/-- C3: stake inference behaves exactly as specified — collect all
`$<decimal>` occurrences with offsets; with a `Returns` occurrence and a
dollar amount before it, take the last such amount; otherwise the
smallest amount when any exists; otherwise no stake. -/
theorem C3_stake_inference (s : String) :
    extractStakeFromText s = stakeSpecC3 s := by
  simp only [extractStakeFromText, stakeSpecC3]
  cases hms : scanDollars s.data with
  | nil =>
    cases hfind : findSub s.data ("Returns".data) with
    | none => rfl
    | some r => simp [smallestOrNone]
  | cons m0 rest =>
    cases hfind : findSub s.data ("Returns".data) with
    | none =>
      simp only [smallestOrNone]
      rw [minValueAux_head_eq]
    | some r =>
      dsimp only
      by_cases hb : (m0 :: rest).filter (fun x => decide (x.index < r)) = []
      · have hlen : ¬ 0 < ((m0 :: rest).filter (fun x => decide (x.index < r))).length := by
          rw [hb]
          simp
        rw [dif_neg hlen, dif_neg (not_not_intro hb)]
        simp only [smallestOrNone]
        rw [minValueAux_head_eq]
      · rw [dif_pos (List.length_pos.mpr hb), dif_pos hb]

/-- Witness for C3 applied at the specification's own example input. -/
theorem C3_stake_inference_witness :
    extractStakeFromText "DH x y -110 $2.00 Returns $3.80"
      = stakeSpecC3 "DH x y -110 $2.00 Returns $3.80" :=
  C3_stake_inference "DH x y -110 $2.00 Returns $3.80"

/-- The claim's reading of the group marker: the text contains `gb` as a
case-insensitive whole word, with a word boundary on both sides. -/
def ContainsWholeWordGB (cs : List Char) : Prop :=
  ∃ (pre post : List Char) (c1 c2 : Char),
    cs = pre ++ c1 :: c2 :: post ∧
    (c1 = 'g' ∨ c1 = 'G') ∧ (c2 = 'b' ∨ c2 = 'B') ∧
    (∀ c0, pre.getLast? = some c0 → isWordChar c0 = false) ∧
    (∀ c3, post.head? = some c3 → isWordChar c3 = false)

theorem boundaryBefore_succ (cs : List Char) (j : Nat) :
    boundaryBefore cs (j + 1)
      = match cs[j]? with
        | some c0 => !isWordChar c0
        | none => true := rfl

theorem isGbAt_containsWholeWord (cs : List Char) (i : Nat)
    (h : isGbAt cs i = true) : ContainsWholeWordGB cs := by
  unfold isGbAt at h
  cases h1 : cs[i]? with
  | none => rw [h1] at h; simp at h
  | some c1 =>
    cases h2 : cs[i + 1]? with
    | none => rw [h1, h2] at h; simp at h
    | some c2 =>
      rw [h1, h2] at h
      simp only [Bool.and_eq_true, Bool.or_eq_true, beq_iff_eq] at h
      obtain ⟨⟨⟨hc1, hc2⟩, hbb⟩, hba⟩ := h
      obtain ⟨hi, hc1e⟩ := List.getElem?_eq_some.mp h1
      obtain ⟨hi2, hc2e⟩ := List.getElem?_eq_some.mp h2
      have hsplit : cs = cs.take i ++ c1 :: c2 :: cs.drop (i + 2) := by
        conv_lhs => rw [← List.take_append_drop i cs]
        congr 1
        rw [List.drop_eq_getElem_cons hi, hc1e]
        congr 1
        rw [List.drop_eq_getElem_cons hi2, hc2e]
      refine ⟨cs.take i, cs.drop (i + 2), c1, c2, hsplit, hc1, hc2, ?_, ?_⟩
      · intro c0 hlast
        cases i with
        | zero => simp at hlast
        | succ j =>
          have hj : j < cs.length := Nat.lt_of_succ_lt hi
          have hjget : cs[j]? = some cs[j] := List.getElem?_eq_getElem hj
          have htake : cs.take (j + 1) = cs.take j ++ [cs[j]] := by
            rw [List.take_succ, hjget]
            rfl
          rw [htake, List.getLast?_concat] at hlast
          have hc0 : c0 = cs[j] := by
            injection hlast with hl
            exact hl.symm
          rw [boundaryBefore_succ, hjget] at hbb
          simp only [Bool.not_eq_true'] at hbb
          rw [hc0]
          exact hbb
      · intro c3 hhead
        rw [List.head?_drop] at hhead
        unfold boundaryAfter at hba
        rw [hhead] at hba
        simp only [Bool.not_eq_true'] at hba
        exact hba

theorem containsWholeWord_hasGB (cs : List Char) (h : ContainsWholeWordGB cs) :
    ∃ i, i < cs.length ∧ isGbAt cs i = true := by
  obtain ⟨pre, post, c1, c2, heq, hc1, hc2, hbefore, hafter⟩ := h
  subst heq
  refine ⟨pre.length, ?_, ?_⟩
  · simp only [List.length_append, List.length_cons]
    omega
  · have hg1 : (pre ++ c1 :: c2 :: post)[pre.length]? = some c1 := by
      rw [List.getElem?_append_right (le_refl pre.length)]
      simp
    have hg2 : (pre ++ c1 :: c2 :: post)[pre.length + 1]? = some c2 := by
      rw [List.getElem?_append_right (Nat.le_succ pre.length)]
      simp [Nat.succ_sub (le_refl pre.length)]
    unfold isGbAt
    rw [hg1, hg2]
    have hbbool : boundaryBefore (pre ++ c1 :: c2 :: post) pre.length = true := by
      cases pre with
      | nil => rfl
      | cons p0 pre2 =>
        have hj : pre2.length < (p0 :: pre2).length := by simp
        have hlastP : (p0 :: pre2).getLast? = some ((p0 :: pre2).getLast (by simp)) :=
          List.getLast?_eq_getLast _ (by simp)
        have hjget : ((p0 :: pre2) ++ c1 :: c2 :: post)[pre2.length]?
            = some ((p0 :: pre2).getLast (by simp)) := by
          have hlen : (p0 :: pre2).length - 1 = pre2.length := by simp
          rw [List.getElem?_append_left hj, ← hlen, ← List.getLast?_eq_getElem?]
          exact hlastP
        simp only [List.length_cons]
        rw [boundaryBefore_succ, hjget]
        have hw := hbefore ((p0 :: pre2).getLast (by simp)) hlastP
        simp only [Bool.not_eq_true']
        exact hw
    have habool : boundaryAfter (pre ++ c1 :: c2 :: post) pre.length = true := by
      unfold boundaryAfter
      have hg3 : (pre ++ c1 :: c2 :: post)[pre.length + 2]? = post.head? := by
        rw [List.getElem?_append_right (by omega)]
        have h2 : pre.length + 2 - pre.length = 2 := by omega
        rw [h2]
        cases post <;> simp
      rw [hg3]
      cases hp : post with
      | nil => rfl
      | cons q0 post2 =>
        have hw := hafter q0 (by rw [hp]; rfl)
        simp only [List.head?_cons, Bool.not_eq_true']
        exact hw
    rw [hbbool, habool]
    rcases hc1 with rfl | rfl <;> rcases hc2 with rfl | rfl <;> rfl

/-- C8: the group-bet marker check is true exactly when the string
contains `gb` as a case-insensitive whole word with a word boundary on
both sides; the isolated words `gb`, `GB`, `Gb` match and `gb` inside
`gbp` does not. -/
theorem C8_group_marker :
    (∀ s : String, hasGB s = true ↔ ContainsWholeWordGB s.data) ∧
    hasGB "gb" = true ∧ hasGB "GB" = true ∧ hasGB "Gb" = true ∧
    hasGB "gbp Returns " = false := by
  refine ⟨?_, by decide, by decide, by decide, by decide⟩
  intro s
  constructor
  · intro h
    obtain ⟨i, _, hat⟩ := List.any_eq_true.mp h
    exact isGbAt_containsWholeWord s.data i hat
  · intro h
    obtain ⟨i, hlt, hat⟩ := containsWholeWord_hasGB s.data h
    exact List.any_eq_true.mpr ⟨i, List.mem_range.mpr hlt, hat⟩

/-- Witness for C8's characterization at a concrete string containing
`gb` as an isolated word. -/
theorem C8_group_marker_witness : ContainsWholeWordGB ("x gb y".data) :=
  (C8_group_marker.1 "x gb y").mp (by decide)

end LCSBot
